import Mathlib

/-!
Verification development for CHash (src/chash.c, src/chash.h), a fixed-capacity
separate-chaining hash table mapping C strings to `void *` values.

Shallow embedding conventions, fixed to the reference platform of the code
(LP64 Linux / x86-64, gcc defaults, glibc malloc):

* `unsigned long int` is 64 bits; arithmetic on it wraps modulo `2 ^ 64`.
* `unsigned int` is 32 bits; converting a wider value to it reduces modulo `2 ^ 32`.
* `unsigned short` is 16 bits; converting `size_t` to it reduces modulo `2 ^ 16`.
* `char` is signed: a byte `b` with `128 ≤ b ≤ 255` read through `char` is the
  integer `b - 256`.
* A C string is a NUL-terminated byte sequence, embedded as `List Nat` of its
  bytes, each in `1..255` (`ValidKey`).
* A `void *` value is embedded as `Option V`: `none` is the null pointer.
* Chains (`t_property` linked lists) are embedded as `List (Entry V)` in list
  order (head of chain first); the slot array is a function `Nat → Chain V`
  (indices at or above the capacity are unused).
-/

/-- Bytes of a C string, without the terminating NUL. -/
abbrev Key : Type := List Nat

/-- The bytes of a C string are nonzero and fit in one byte. -/
def ValidKey (k : Key) : Prop := ∀ b ∈ k, 0 < b ∧ b < 256

instance (k : Key) : Decidable (ValidKey k) := by
  unfold ValidKey; infer_instance

/-- Value of a byte read through signed `char` and then added into an
`unsigned long int`: bytes at or above 128 contribute `b - 256` modulo `2 ^ 64`
(chash.c line 48, `p_key[counter]` has type `char`). -/
def charAsULong (b : Nat) : Nat := if b < 128 then b else 2 ^ 64 - 256 + b

/-- One iteration of the hashing loop, chash.c line 48:
`value = value * 33 + p_key[counter++];` on `unsigned long int`. -/
def hashStep (v b : Nat) : Nat := (v * 33 + charAsULong b) % 2 ^ 64

/-- Embedding of `_hash` (chash.c lines 34-52).  The local `length` is declared
`unsigned short`, so `length = strlen(p_key)` truncates the string length
modulo `2 ^ 16` and the loop visits only the first `strlen mod 2 ^ 16` bytes. -/
def chashHash (k : Key) : Nat :=
  (k.take (k.length % 2 ^ 16)).foldl hashStep 0

/-- Slot index used by `ch_put`, `ch_get` and `ch_delete` (chash.c lines 150,
198, 242): `hash = _hash(p_key) % p_table->size;` where the local `hash` is
`unsigned int`, so the 64-bit remainder is further reduced modulo `2 ^ 32`. -/
def slotOf (size : Nat) (k : Key) : Nat := (chashHash k % size) % 2 ^ 32

/-- Embedding of `t_property` (chash.h lines 19-23) without the intrusive
`p_next` pointer: a chain is a list of entries. -/
structure Entry (V : Type) where
  key : Key
  value : Option V
  deriving DecidableEq, Repr

/-- A collision chain, head of the linked list first. -/
abbrev Chain (V : Type) : Type := List (Entry V)

/-- Embedding of `t_table` (chash.h lines 33-36): the capacity `size` and the
slot array `p_entries`. -/
structure TableF (V : Type) where
  size : Nat
  slots : Nat → Chain V

/-- A table as produced by a successful `ch_create(size)` (chash.c lines
343-346): all slots NULL. -/
def emptyTable (V : Type) (size : Nat) : TableF V :=
  { size := size, slots := fun _ => [] }

/-- Overwrite one cell of the slot array, as the assignments
`p_table->p_entries[hash] = ...` do. -/
def setSlot {V : Type} (t : TableF V) (i : Nat) (c : Chain V) : TableF V :=
  { t with slots := Function.update t.slots i c }

@[simp] theorem setSlot_size {V : Type} (t : TableF V) (i : Nat) (c : Chain V) :
    (setSlot t i c).size = t.size := rfl

@[simp] theorem setSlot_slots {V : Type} (t : TableF V) (i : Nat) (c : Chain V) :
    (setSlot t i c).slots = Function.update t.slots i c := rfl

/-- Walk of the chain performed by `ch_put` (chash.c lines 162-175), with every
allocation succeeding: update the value of the first entry whose key matches
(`strcmp == 0`), in place; otherwise hang a new entry off the tail.  The `[]`
case also covers the empty-slot branch at lines 156-159, which stores the
freshly constructed entry as the new head. -/
def putChain {V : Type} : Chain V → Key → Option V → Chain V
  | [], k, v => [{ key := k, value := v }]
  | e :: rest, k, v =>
    if e.key = k then { e with value := v } :: rest
    else e :: putChain rest k v

/-- Embedding of `ch_put` (chash.c lines 143-177) with every allocation
succeeding.  Returns the mutated table and the function's return value, which
is `p_value` on every path. -/
def chPut {V : Type} (t : TableF V) (k : Key) (v : Option V) :
    TableF V × Option V :=
  let hash := slotOf t.size k
  match t.slots hash with
  | [] => (setSlot t hash [{ key := k, value := v }], v)
  | e :: rest => (setSlot t hash (putChain (e :: rest) k v), v)

/-- Walk of the chain performed by `ch_get` (chash.c lines 203-218): value of
the first entry whose key matches, else NULL. -/
def getChain {V : Type} : Chain V → Key → Option V
  | [], _ => none
  | e :: rest, k => if e.key = k then e.value else getChain rest k

/-- Embedding of `ch_get` (chash.c lines 191-219).  Read-only; the `none`
result is the NULL return at lines 204 and 218. -/
def chGet {V : Type} (t : TableF V) (k : Key) : Option V :=
  getChain (t.slots (slotOf t.size k)) k

/-- Walk of the chain performed by `ch_delete` (chash.c lines 249-270): find
the first entry whose key matches, tracking the previous node; unlink it (the
slot head if it is the head, otherwise the previous entry's next-link) and
report its value.  `none` when no entry matches. -/
def delChain {V : Type} : Chain V → Key → Option (Chain V × Option V)
  | [], _ => none
  | e :: rest, k =>
    if e.key = k then some (rest, e.value)
    else (delChain rest k).map fun p => (e :: p.1, p.2)

/-- Embedding of `ch_delete` (chash.c lines 234-277): on a match, the rebuilt
chain replaces the slot and the cached value pointer is returned; with no
match the table is untouched and NULL is returned (line 256). -/
def chDelete {V : Type} (t : TableF V) (k : Key) : TableF V × Option V :=
  match delChain (t.slots (slotOf t.size k)) k with
  | none => (t, none)
  | some (c, v) => (setSlot t (slotOf t.size k) c, v)

/-- The chain walk of `ch_get`/`ch_delete` finds the key: mirrors the
`strcmp` search the code performs at the key's slot. -/
def chContains {V : Type} (t : TableF V) (k : Key) : Bool :=
  (t.slots (slotOf t.size k)).any fun e => e.key = k

/-- Fold a list of `put` operations over a table, all allocations
succeeding. -/
def insertAll {V : Type} (t : TableF V) (ops : List (Key × Option V)) : TableF V :=
  ops.foldl (fun t p => (chPut t p.1 p.2).1) t

/-- Well-formedness of the tables reachable through the API: positive
capacity, slots beyond the capacity unused, every entry at the slot its key
selects (through `slotOf`, i.e. including the code's 32-bit truncation), a
valid key in every entry, and no repeated key within a chain. -/
def WF {V : Type} (t : TableF V) : Prop :=
  0 < t.size ∧
  (∀ i, t.size ≤ i → t.slots i = []) ∧
  (∀ i, ∀ e ∈ t.slots i, ValidKey e.key ∧ slotOf t.size e.key = i) ∧
  (∀ i, ((t.slots i).map Entry.key).Nodup)

/-- Modelled from the spec (section 3): the slot-placement invariant exactly
as the specification words it — every entry reachable from `slots[i]` hashes,
modulo the capacity, to `i` (no truncation to `unsigned int`). -/
def SpecSlotInv {V : Type} (t : TableF V) : Prop :=
  ∀ i, ∀ e ∈ t.slots i, chashHash e.key % t.size = i

/-- No two live entries of the table have equal keys: keys are unique inside
each chain and across distinct slots. -/
def UniqueKeys {V : Type} (t : TableF V) : Prop :=
  (∀ i, ((t.slots i).map Entry.key).Nodup) ∧
  ∀ i j, i ≠ j → ∀ e ∈ t.slots i, ∀ e' ∈ t.slots j, e.key ≠ e'.key

/-- Modelled from the spec (section 4.1): the claimed hash algorithm — the
accumulator starts at 0 and, for each byte of the string in order, becomes
accumulator × 33 + byte value, with unsigned wraparound. -/
def specHash (k : Key) : Nat :=
  k.foldl (fun v b => (v * 33 + b) % 2 ^ 64) 0

/-- A 7-byte key whose hash under `chashHash` is exactly `2 ^ 32`. -/
def key7 : Key := [3, 10, 24, 20, 26, 9, 4]

/-! ### Heap-level model

`ch_clear` and `ch_destroy` manipulate heap cells in ways the functional
model cannot express (freeing a node while a slot still points at it), so
they are embedded against an explicit heap.  Addresses are natural numbers;
a slot holds `none` for the NULL pointer or `some a` for a head address; the
heap maps an address to the node allocated there, `none` meaning the address
is not (or no longer) allocated. -/

/-- Heap-level `t_property`: key, value and the intrusive `p_next` address. -/
structure HNode (V : Type) where
  key : Key
  value : Option V
  next : Option Nat
  deriving DecidableEq, Repr

/-- Heap-level `t_table` together with the heap holding its entries. -/
structure HTable (V : Type) where
  size : Nat
  slots : Nat → Option Nat
  heap : Nat → Option (HNode V)

/-- Embedding of `ch_clear` (chash.c lines 290-307).  The loop reads each slot
head and, when non-NULL, hands it to `_clear` (lines 65-78), which frees the
node and its key string.  It does not follow `p_next` — nodes after the head
of a chain are never freed — and it never writes to `p_table->p_entries`, so
every slot keeps its now-dangling head pointer. -/
def clearLoopHeap {V : Type} (t : HTable V) : Nat → Option (HNode V) :=
  (List.range t.size).foldl
    (fun h i =>
      match t.slots i with
      | some a => Function.update h a none
      | none => h)
    t.heap

/-- See `clearLoopHeap` for the loop body; the slot array is untouched. -/
def chClearH {V : Type} (t : HTable V) : HTable V :=
  { t with heap := clearLoopHeap t }

/-- Undefined behaviors the heap / allocation models make observable. -/
inductive CrashE : Type where
  | nullDeref
  | useAfterFree
  | outOfFuel
  deriving DecidableEq, Repr

/-- Chain walk of `ch_get` at heap level.  Dereferencing an unallocated (or
freed) address is undefined behavior in the C program, reported here as
`CrashE.useAfterFree`.  The `fuel` argument bounds the walk, since the C loop
itself has no termination guarantee on a corrupted chain. -/
def chGetHWalk {V : Type} (heap : Nat → Option (HNode V)) (k : Key) :
    Option Nat → Nat → Except CrashE (Option V)
  | none, _ => Except.ok none
  | some _, 0 => Except.error CrashE.outOfFuel
  | some a, fuel + 1 =>
    match heap a with
    | none => Except.error CrashE.useAfterFree
    | some nd =>
      if nd.key = k then Except.ok nd.value
      else chGetHWalk heap k nd.next fuel

/-- Heap-level `ch_get` (chash.c lines 191-219). -/
def chGetH {V : Type} (t : HTable V) (k : Key) (fuel : Nat) :
    Except CrashE (Option V) :=
  chGetHWalk t.heap k (t.slots (slotOf t.size k)) fuel

/-- Size of the `p_entries` field of `t_table`: a pointer, 8 bytes on LP64. -/
def sizeofEntriesField : Nat := 8

/-- Size of `t_property`: three 8-byte pointer members on LP64. -/
def sizeofProperty : Nat := 24

/-- Entry-releasing phase of `ch_destroy` (chash.c lines 365-367): the guard
`(sizeof(p_table->p_entries) / sizeof(t_property)) > 0` divides the size of a
pointer by the size of the node struct, a compile-time constant `8 / 24 = 0`,
so the branch calling `ch_clear` is dead and no entry is ever released. -/
def chDestroyEntries {V : Type} (t : HTable V) : HTable V :=
  if sizeofEntriesField / sizeofProperty > 0 then chClearH t else t

/-- A capacity-1 heap table whose single chain is the node for key "a"
(value 10) at address 1 followed by the node for key "b" (value 20) at
address 2.  Both keys hash to slot 0. -/
def twoChainTable : HTable Nat :=
  { size := 1
  , slots := fun i => if i = 0 then some 1 else none
  , heap := fun a =>
      if a = 1 then some { key := [97], value := some 10, next := some 2 }
      else if a = 2 then some { key := [98], value := some 20, next := none }
      else none }

/-! ### Allocation-failure model

`ch_create` and `ch_put` (through `_construct`) call `malloc`; the booleans
below fix the outcome of each allocation the operation performs. -/

/-- Embedding of `_construct` (chash.c lines 92-117) with explicit allocation
outcomes.  Line 99 stores through `p_entry` before the NULL check at line
102: when the node allocation fails the function crashes on a NULL
dereference instead of reporting failure.  When only the key allocation
fails, the check runs, `_clear` releases the node (the partial memory), and
NULL is returned. -/
def constructM {V : Type} (allocNode allocKey : Bool) (k : Key) (v : Option V) :
    Except CrashE (Option (Entry V)) :=
  if allocNode then
    if allocKey then Except.ok (some { key := k, value := v })
    else Except.ok none
  else Except.error CrashE.nullDeref

/-- Chain walk of `ch_put` with explicit allocation outcomes.  The in-place
update allocates nothing; only the construction of a fresh node can fail.  A
NULL result of `_construct` is stored as the new head (chash.c line 157) or
appended as the new tail next-pointer (line 175) without any check, so the
chain simply does not grow. -/
def putChainM {V : Type} (allocNode allocKey : Bool) :
    Chain V → Key → Option V → Except CrashE (Chain V)
  | [], k, v =>
    (constructM allocNode allocKey k v).map fun r =>
      match r with
      | none => []
      | some e => [e]
  | e :: rest, k, v =>
    if e.key = k then Except.ok ({ e with value := v } :: rest)
    else (putChainM allocNode allocKey rest k v).map fun c => e :: c

/-- Embedding of `ch_put` with explicit allocation outcomes.  On every path
that returns at all, the returned value is `p_value` (chash.c lines 158, 167,
176): the caller is never told that an allocation failed. -/
def chPutM {V : Type} (allocNode allocKey : Bool) (t : TableF V) (k : Key)
    (v : Option V) : Except CrashE (TableF V × Option V) :=
  (putChainM allocNode allocKey (t.slots (slotOf t.size k)) k v).map fun c =>
    (setSlot t (slotOf t.size k) c, v)

/-- Embedding of `ch_create` (chash.c lines 320-349) with explicit allocation
outcomes.  Line 332 stores through `p_table` before the NULL check at line
338: when the table allocation fails the function crashes.  When only the
slot-array allocation fails, the check runs, `ch_destroy` releases the
partial table and NULL is returned (`Except.ok none`, the reported failure).
The capacity is never validated: under glibc `malloc(0)` succeeds, so
`ch_create(0)` returns a table whose slot array has length zero. -/
def chCreateM (V : Type) (allocTable allocSlots : Bool) (size : Nat) :
    Except CrashE (Option (TableF V)) :=
  if allocTable then
    if allocSlots then Except.ok (some (emptyTable V size))
    else Except.ok none
  else Except.error CrashE.nullDeref

example : chashHash [] = 0 := by decide
example : chashHash [97] = 97 := by decide
example : chashHash [3, 10, 24, 20, 26, 9, 4] = 2 ^ 32 := by decide
example : chashHash [200] = 2 ^ 64 - 56 := by decide
example :
    chGet (insertAll (emptyTable Nat 1) [([97], some 10), ([98], some 20)]) [98]
      = some 20 := by decide
example :
    chGet (chDelete (insertAll (emptyTable Nat 1)
      [([97], some 10), ([98], some 20)]) [97]).1 [97] = none := by decide

/-! ### Chain-level lemmas about the put / get / delete walks -/

theorem getChain_putChain_self {V : Type} (c : Chain V) (k : Key) (v : Option V) :
    getChain (putChain c k v) k = v := by
  induction c with
  | nil => simp [putChain, getChain]
  | cons e rest ih =>
    by_cases h : e.key = k
    · simp [putChain, h, getChain]
    · simp [putChain, h, getChain, ih]

theorem getChain_putChain_other {V : Type} (c : Chain V) {k j : Key}
    (v : Option V) (hne : k ≠ j) :
    getChain (putChain c k v) j = getChain c j := by
  induction c with
  | nil => simp [putChain, getChain, hne, hne.symm]
  | cons e rest ih =>
    by_cases h : e.key = k
    · have hj : e.key ≠ j := h ▸ hne
      simp [putChain, h, getChain, hj, hne, hne.symm]
    · by_cases h2 : e.key = j
      · simp [putChain, h, getChain, h2, hne, hne.symm]
      · simp [putChain, h, getChain, h2, ih]

theorem chPut_fst {V : Type} (t : TableF V) (k : Key) (v : Option V) :
    (chPut t k v).1 =
      setSlot t (slotOf t.size k) (putChain (t.slots (slotOf t.size k)) k v) := by
  unfold chPut
  cases h : t.slots (slotOf t.size k) with
  | nil => simp [h, putChain]
  | cons e rest => simp [h]

theorem chPut_snd {V : Type} (t : TableF V) (k : Key) (v : Option V) :
    (chPut t k v).2 = v := by
  unfold chPut
  cases h : t.slots (slotOf t.size k) with
  | nil => simp [h]
  | cons e rest => simp [h]

theorem chPut_size {V : Type} (t : TableF V) (k : Key) (v : Option V) :
    (chPut t k v).1.size = t.size := by
  rw [chPut_fst, setSlot_size]

theorem chGet_chPut_self {V : Type} (t : TableF V) (k : Key) (v : Option V) :
    chGet (chPut t k v).1 k = v := by
  rw [chPut_fst]
  simp [chGet, getChain_putChain_self]

theorem chGet_chPut_other {V : Type} (t : TableF V) {k j : Key} (v : Option V)
    (hne : k ≠ j) :
    chGet (chPut t k v).1 j = chGet t j := by
  rw [chPut_fst]
  simp only [chGet, setSlot_size, setSlot_slots]
  by_cases hij : slotOf t.size j = slotOf t.size k
  · rw [hij, Function.update_same, getChain_putChain_other _ _ hne]
  · rw [Function.update_noteq hij]

theorem chGet_insertAll_of_not_mem {V : Type} (ops : List (Key × Option V))
    (t : TableF V) (k : Key) (h : ∀ p ∈ ops, p.1 ≠ k) :
    chGet (insertAll t ops) k = chGet t k := by
  induction ops generalizing t with
  | nil => rfl
  | cons p rest ih =>
    have hrest : ∀ q ∈ rest, q.1 ≠ k := fun q hq => h q (List.mem_cons_of_mem p hq)
    have hstep := chGet_chPut_other t (k := p.1) (j := k) p.2 (h p (List.mem_cons_self p rest))
    calc chGet (insertAll (chPut t p.1 p.2).1 rest) k
        = chGet (chPut t p.1 p.2).1 k := ih _ hrest
      _ = chGet t k := hstep

theorem chGet_insertAll_mem {V : Type} (ops : List (Key × Option V))
    (t : TableF V) (k : Key) (v : Option V) (hmem : (k, v) ∈ ops)
    (hnd : (ops.map Prod.fst).Nodup) :
    chGet (insertAll t ops) k = v := by
  induction ops generalizing t with
  | nil => cases hmem
  | cons p rest ih =>
    rcases List.mem_cons.mp hmem with heq | hrest
    · subst heq
      have hk : ∀ q ∈ rest, q.1 ≠ k := by
        intro q hq hqk
        have : k ∈ rest.map Prod.fst := hqk ▸ List.mem_map_of_mem Prod.fst hq
        exact (List.nodup_cons.mp hnd).1 this
      calc chGet (insertAll (chPut t k v).1 rest) k
          = chGet (chPut t k v).1 k := chGet_insertAll_of_not_mem rest _ k hk
        _ = v := chGet_chPut_self t k v
    · exact ih _ hrest (List.nodup_cons.mp hnd).2

theorem getChain_eq_none_of_forall {V : Type} (c : Chain V) (k : Key)
    (h : ∀ e ∈ c, e.key ≠ k) : getChain c k = none := by
  induction c with
  | nil => rfl
  | cons e rest ih =>
    have he := h e (List.mem_cons_self e rest)
    simp only [getChain, he, if_false]
    exact ih fun e' h' => h e' (List.mem_cons_of_mem e h')

theorem delChain_eq_none {V : Type} (c : Chain V) (k : Key) :
    delChain c k = none ↔ ∀ e ∈ c, e.key ≠ k := by
  induction c with
  | nil => simp [delChain]
  | cons e rest ih =>
    by_cases h : e.key = k
    · simp [delChain, h]
    · simp [delChain, h, Option.map_eq_none', ih]

theorem delChain_some_spec {V : Type} (c : Chain V) (k : Key) :
    ∀ c' v, delChain c k = some (c', v) →
      v = getChain c k ∧ c'.Sublist c ∧
      (∀ j, j ≠ k → getChain c' j = getChain c j) ∧
      ((c.map Entry.key).Nodup → getChain c' k = none) := by
  induction c with
  | nil => intro c' v h; simp [delChain] at h
  | cons e rest ih =>
    intro c' v h
    by_cases he : e.key = k
    · simp only [delChain, he, if_true, Option.some.injEq, Prod.mk.injEq] at h
      obtain ⟨h1, h2⟩ := h
      subst h1; subst h2
      refine ⟨by simp [getChain, he], List.Sublist.cons _ (List.Sublist.refl _), ?_, ?_⟩
      · intro j hj
        simp [getChain, he, Ne.symm hj]
      · intro hnd
        apply getChain_eq_none_of_forall
        intro e' he' hk
        have : e.key ∈ rest.map Entry.key := by
          rw [he, ← hk]; exact List.mem_map_of_mem Entry.key he'
        exact (List.nodup_cons.mp (by simpa using hnd)).1 this
    · cases hd : delChain rest k with
      | none => simp [delChain, he, hd] at h
      | some p =>
        simp only [delChain, he, if_false, hd, Option.map_some', Option.some.injEq,
          Prod.mk.injEq] at h
        obtain ⟨h1, h2⟩ := h
        subst h1; subst h2
        obtain ⟨ih1, ih2, ih3, ih4⟩ := ih p.1 p.2 (by rw [hd])
        refine ⟨?_, List.Sublist.cons₂ _ ih2, ?_, ?_⟩
        · simp only [getChain, he, if_false]
          exact ih1
        · intro j hj
          by_cases hej : e.key = j
          · simp [getChain, hej]
          · simp [getChain, hej, ih3 j hj]
        · intro hnd
          have hnd' : (rest.map Entry.key).Nodup :=
            (List.nodup_cons.mp (by simpa using hnd)).2
          simp only [getChain, he, if_false]
          exact ih4 hnd'

theorem chContains_false_iff {V : Type} (t : TableF V) (k : Key) :
    chContains t k = false ↔ ∀ e ∈ t.slots (slotOf t.size k), e.key ≠ k := by
  simp [chContains]

theorem chContains_true_iff {V : Type} (t : TableF V) (k : Key) :
    chContains t k = true ↔ ∃ e ∈ t.slots (slotOf t.size k), e.key = k := by
  simp [chContains]

theorem putChain_append {V : Type} (c : Chain V) (k : Key) (v : Option V)
    (h : ∀ e ∈ c, e.key ≠ k) :
    putChain c k v = c ++ [{ key := k, value := v }] := by
  induction c with
  | nil => rfl
  | cons e rest ih =>
    have he := h e (List.mem_cons_self e rest)
    simp [putChain, he, ih fun e' h' => h e' (List.mem_cons_of_mem e h')]

theorem delChain_append {V : Type} (c : Chain V) (k : Key) (v : Option V)
    (h : ∀ e ∈ c, e.key ≠ k) :
    delChain (c ++ [{ key := k, value := v }]) k = some (c, v) := by
  induction c with
  | nil => simp [delChain]
  | cons e rest ih =>
    have he := h e (List.mem_cons_self e rest)
    simp [delChain, he, ih fun e' h' => h e' (List.mem_cons_of_mem e h')]

theorem chDelete_not_contains {V : Type} (t : TableF V) (k : Key)
    (h : chContains t k = false) : chDelete t k = (t, none) := by
  have hnone : delChain (t.slots (slotOf t.size k)) k = none :=
    (delChain_eq_none _ _).mpr ((chContains_false_iff t k).mp h)
  simp [chDelete, hnone]

theorem setSlot_setSlot {V : Type} (t : TableF V) (i : Nat) (c c' : Chain V) :
    setSlot (setSlot t i c) i c' = setSlot t i c' := by
  simp [setSlot, Function.update_idem]

theorem setSlot_self {V : Type} (t : TableF V) (i : Nat) :
    setSlot t i (t.slots i) = t := by
  simp [setSlot, Function.update_eq_self]

/-! ### Claim C1 -/

/-- C1: for every table created with capacity at least 1 and every sequence of
put operations with pairwise distinct keys (all allocations succeeding), a
subsequent get returns exactly the value that was put for each inserted key,
however many keys collide into the same slot — including capacity 1, where
all keys share one chain. -/
theorem C1_get_after_distinct_puts {V : Type} (C : Nat) (hC : 0 < C)
    (ops : List (Key × Option V)) (hnd : (ops.map Prod.fst).Nodup)
    (hval : ∀ p ∈ ops, ValidKey p.1) (k : Key) (v : Option V)
    (hmem : (k, v) ∈ ops) :
    chGet (insertAll (emptyTable V C) ops) k = v :=
  chGet_insertAll_mem ops _ k v hmem hnd

/-- Witness for C1: capacity 1, two colliding keys, both retrievable. -/
theorem C1_witness :
    (0 < 1
      ∧ (([([97], some 10), ([98], (some 20 : Option Nat))].map Prod.fst)).Nodup
      ∧ (∀ p ∈ [([97], some 10), ([98], (some 20 : Option Nat))], ValidKey p.1)
      ∧ ([98], (some 20 : Option Nat)) ∈ [([97], some 10), ([98], some 20)])
    ∧ chGet (insertAll (emptyTable Nat 1) [([97], some 10), ([98], some 20)]) [98]
        = some 20 :=
  ⟨⟨by decide, by decide, by decide, by decide⟩,
   C1_get_after_distinct_puts 1 (by decide) _ (by decide) (by decide) [98]
     (some 20) (by decide)⟩

/-! ### Claim C10 -/

/-- C10: on any table in which the key is absent, put of that key followed by
delete of it returns the value from the delete and restores the table to
exactly its previous state, every slot and chain identical. -/
theorem C10_put_then_delete_roundtrip {V : Type} (t : TableF V) (k : Key)
    (v : Option V) (hsz : 0 < t.size) (hk : ValidKey k)
    (habs : chContains t k = false) :
    chDelete (chPut t k v).1 k = (t, v) := by
  have hall : ∀ e ∈ t.slots (slotOf t.size k), e.key ≠ k :=
    (chContains_false_iff t k).mp habs
  rw [chPut_fst, putChain_append _ _ _ hall]
  simp only [chDelete, setSlot_size, setSlot_slots, Function.update_same,
    delChain_append _ _ _ hall, setSlot_setSlot, setSlot_self]

/-- Witness for C10 on a capacity-1 table already holding one entry. -/
theorem C10_witness :
    (0 < (chPut (emptyTable Nat 1) [97] (some 1)).1.size
      ∧ ValidKey [98]
      ∧ chContains (chPut (emptyTable Nat 1) [97] (some 1)).1 [98] = false)
    ∧ chDelete (chPut (chPut (emptyTable Nat 1) [97] (some 1)).1 [98] (some 2)).1 [98]
        = ((chPut (emptyTable Nat 1) [97] (some 1)).1, some 2) :=
  ⟨⟨by decide, by decide, by decide⟩,
   C10_put_then_delete_roundtrip _ [98] (some 2) (by decide) (by decide) (by decide)⟩

/-! ### Well-formedness and its preservation -/

theorem slotOf_lt {size : Nat} (h : 0 < size) (k : Key) : slotOf size k < size :=
  lt_of_le_of_lt (Nat.mod_le _ _) (Nat.mod_lt _ h)

theorem WF_emptyTable {V : Type} (C : Nat) (h : 0 < C) : WF (emptyTable V C) := by
  refine ⟨h, fun i _ => rfl, fun i e he => ?_, fun i => ?_⟩
  · simp [emptyTable] at he
  · simp [emptyTable]

theorem keys_putChain_of_mem {V : Type} (c : Chain V) (k : Key) (v : Option V)
    (h : k ∈ c.map Entry.key) :
    (putChain c k v).map Entry.key = c.map Entry.key := by
  induction c with
  | nil => simp at h
  | cons e rest ih =>
    by_cases he : e.key = k
    · simp [putChain, he]
    · have h0 : k = e.key ∨ k ∈ rest.map Entry.key := by
        rw [List.map_cons, List.mem_cons] at h
        exact h
      have h' : k ∈ rest.map Entry.key := by
        rcases h0 with h1 | h1
        · exact absurd h1.symm he
        · exact h1
      simp [putChain, he, ih h']

theorem keys_putChain_of_not_mem {V : Type} (c : Chain V) (k : Key)
    (v : Option V) (h : k ∉ c.map Entry.key) :
    (putChain c k v).map Entry.key = c.map Entry.key ++ [k] := by
  have hall : ∀ e ∈ c, e.key ≠ k :=
    fun e he hek => h (hek ▸ List.mem_map_of_mem Entry.key he)
  rw [putChain_append _ _ _ hall]
  simp

theorem WF_chPut {V : Type} (t : TableF V) (k : Key) (v : Option V)
    (hwf : WF t) (hk : ValidKey k) : WF (chPut t k v).1 := by
  obtain ⟨hpos, hhigh, hslot, hnd⟩ := hwf
  have hidx : slotOf t.size k < t.size := slotOf_lt hpos k
  rw [chPut_fst]
  refine ⟨hpos, ?_, ?_, ?_⟩
  · intro i hi
    have hi2 : t.size ≤ i := hi
    have hne : i ≠ slotOf t.size k := by omega
    rw [setSlot_slots, Function.update_noteq hne]
    exact hhigh i hi2
  · intro i e he
    rw [setSlot_slots] at he
    by_cases hi : i = slotOf t.size k
    · subst hi
      rw [Function.update_same] at he
      have hkey : e.key ∈ (putChain (t.slots (slotOf t.size k)) k v).map Entry.key :=
        List.mem_map_of_mem Entry.key he
      by_cases hmemk : k ∈ (t.slots (slotOf t.size k)).map Entry.key
      · rw [keys_putChain_of_mem _ _ _ hmemk] at hkey
        obtain ⟨e', he', hke⟩ := List.mem_map.mp hkey
        have hres := hslot _ e' he'
        exact ⟨hke ▸ hres.1, hke ▸ hres.2⟩
      · rw [keys_putChain_of_not_mem _ _ _ hmemk] at hkey
        rcases List.mem_append.mp hkey with h1 | h1
        · obtain ⟨e', he', hke⟩ := List.mem_map.mp h1
          have hres := hslot _ e' he'
          exact ⟨hke ▸ hres.1, hke ▸ hres.2⟩
        · have hek : e.key = k := by simpa using h1
          rw [hek]
          exact ⟨hk, rfl⟩
    · rw [Function.update_noteq hi] at he
      exact hslot i e he
  · intro i
    rw [setSlot_slots]
    by_cases hi : i = slotOf t.size k
    · subst hi
      rw [Function.update_same]
      by_cases hmemk : k ∈ (t.slots (slotOf t.size k)).map Entry.key
      · rw [keys_putChain_of_mem _ _ _ hmemk]
        exact hnd _
      · rw [keys_putChain_of_not_mem _ _ _ hmemk]
        refine List.Nodup.append (hnd _) (List.nodup_singleton k) ?_
        intro x hx hxk
        rw [List.mem_singleton] at hxk
        exact hmemk (hxk ▸ hx)
    · rw [Function.update_noteq hi]
      exact hnd i

theorem WF_chDelete {V : Type} (t : TableF V) (k : Key) (hwf : WF t) :
    WF (chDelete t k).1 := by
  obtain ⟨hpos, hhigh, hslot, hnd⟩ := hwf
  cases hd : delChain (t.slots (slotOf t.size k)) k with
  | none =>
    have heq : chDelete t k = (t, none) := by simp [chDelete, hd]
    rw [heq]
    exact ⟨hpos, hhigh, hslot, hnd⟩
  | some p =>
    obtain ⟨c', v⟩ := p
    have heq : chDelete t k = (setSlot t (slotOf t.size k) c', v) := by
      simp [chDelete, hd]
    obtain ⟨hv, hsub, hother, hself⟩ := delChain_some_spec _ k c' v hd
    have hidx : slotOf t.size k < t.size := slotOf_lt hpos k
    rw [heq]
    refine ⟨hpos, ?_, ?_, ?_⟩
    · intro i hi
      have hi2 : t.size ≤ i := hi
      have hne : i ≠ slotOf t.size k := by omega
      rw [setSlot_slots, Function.update_noteq hne]
      exact hhigh i hi2
    · intro i e he
      rw [setSlot_slots] at he
      by_cases hi : i = slotOf t.size k
      · subst hi
        rw [Function.update_same] at he
        exact hslot _ e (hsub.subset he)
      · rw [Function.update_noteq hi] at he
        exact hslot i e he
    · intro i
      rw [setSlot_slots]
      by_cases hi : i = slotOf t.size k
      · subst hi
        rw [Function.update_same]
        exact (hnd _).sublist (hsub.map Entry.key)
      · rw [Function.update_noteq hi]
        exact hnd i

theorem chDelete_size {V : Type} (t : TableF V) (k : Key) :
    (chDelete t k).1.size = t.size := by
  cases hd : delChain (t.slots (slotOf t.size k)) k with
  | none => simp [chDelete, hd]
  | some p =>
    obtain ⟨c', v⟩ := p
    simp [chDelete, hd]

theorem chDelete_snd {V : Type} (t : TableF V) (k : Key) :
    (chDelete t k).2 = chGet t k := by
  cases hd : delChain (t.slots (slotOf t.size k)) k with
  | none =>
    have hnone : chGet t k = none :=
      getChain_eq_none_of_forall _ _ ((delChain_eq_none _ _).mp hd)
    simp [chDelete, hd, hnone]
  | some p =>
    obtain ⟨c', v⟩ := p
    have hv := (delChain_some_spec _ k c' v hd).1
    simpa [chDelete, hd, chGet] using hv

theorem WF_uniqueKeys {V : Type} (t : TableF V) (hwf : WF t) : UniqueKeys t := by
  obtain ⟨hpos, hhigh, hslot, hnd⟩ := hwf
  refine ⟨hnd, ?_⟩
  intro i j hij e he e' he' hkeq
  apply hij
  have h1 := (hslot i e he).2
  have h2 := (hslot j e' he').2
  rw [← h1, ← h2, hkeq]

/-! ### Claim C6 -/

/-- C6: on a well-formed table, delete of a present key returns exactly the
value the chain stores for it, unlinks exactly the matched entry (get of the
deleted key afterwards is NULL, get of every other key is unchanged), and
delete of an absent key returns NULL and leaves the table completely
unchanged. -/
theorem C6_delete_present_absent {V : Type} (t : TableF V) (k : Key)
    (hwf : WF t) (hk : ValidKey k) :
    (chContains t k = true →
      (chDelete t k).2 = chGet t k ∧
      chGet (chDelete t k).1 k = none ∧
      ∀ j, j ≠ k → chGet (chDelete t k).1 j = chGet t j) ∧
    (chContains t k = false → chDelete t k = (t, none)) := by
  obtain ⟨hpos, hhigh, hslot, hnd⟩ := hwf
  refine ⟨?_, chDelete_not_contains t k⟩
  intro hpres
  cases hd : delChain (t.slots (slotOf t.size k)) k with
  | none =>
    exfalso
    obtain ⟨e, he, hek⟩ := (chContains_true_iff t k).mp hpres
    exact ((delChain_eq_none _ _).mp hd e he) hek
  | some p =>
    obtain ⟨c', v⟩ := p
    have heq : chDelete t k = (setSlot t (slotOf t.size k) c', v) := by
      simp [chDelete, hd]
    obtain ⟨hv, hsub, hother, hself⟩ := delChain_some_spec _ k c' v hd
    refine ⟨chDelete_snd t k, ?_, ?_⟩
    · rw [heq]
      simp only [chGet, setSlot_size, setSlot_slots, Function.update_same]
      exact hself (hnd _)
    · intro j hj
      rw [heq]
      simp only [chGet, setSlot_size, setSlot_slots]
      by_cases hs : slotOf t.size j = slotOf t.size k
      · rw [hs, Function.update_same]
        exact hother j hj
      · rw [Function.update_noteq hs]

/-- Witness for C6: a capacity-1 table with a two-entry chain; deleting the
first key returns its value and leaves only it unretrievable. -/
theorem C6_witness :
    chContains (chPut (chPut (emptyTable Nat 1) [97] (some 1)).1 [98] (some 2)).1 [97] = true
    ∧ (chDelete (chPut (chPut (emptyTable Nat 1) [97] (some 1)).1 [98] (some 2)).1 [97]).2
        = chGet (chPut (chPut (emptyTable Nat 1) [97] (some 1)).1 [98] (some 2)).1 [97]
    ∧ chGet (chDelete (chPut (chPut (emptyTable Nat 1) [97] (some 1)).1 [98] (some 2)).1 [97]).1 [97]
        = none := by
  have hwf : WF (chPut (chPut (emptyTable Nat 1) [97] (some 1)).1 [98] (some 2)).1 :=
    WF_chPut _ _ _ (WF_chPut _ _ _ (WF_emptyTable 1 (by decide)) (by decide)) (by decide)
  have h := C6_delete_present_absent _ [97] hwf (by decide)
  have hp := h.1 (by decide)
  exact ⟨by decide, hp.1, hp.2.1⟩

/-! ### Claim C7 -/

/-- C7 counterexample: a key stored with a NULL value is indistinguishable,
through the return values of get and delete, from a key that is absent — the
"not found" outcome is the same NULL the table stores. -/
theorem C7_counterexample :
    chContains (chPut (emptyTable Nat 1) [97] none).1 [97] = true
    ∧ chContains (chPut (emptyTable Nat 1) [97] none).1 [98] = false
    ∧ chGet (chPut (emptyTable Nat 1) [97] none).1 [97]
        = chGet (chPut (emptyTable Nat 1) [97] none).1 [98]
    ∧ (chDelete (chPut (emptyTable Nat 1) [97] none).1 [97]).2
        = (chDelete (chPut (emptyTable Nat 1) [97] none).1 [98]).2 := by
  decide

/-- C7 amended: get and delete signal "not found" with NULL, the very value
returned for a key whose stored value reference is NULL, so the two outcomes
coincide whenever such a key is present. -/
theorem C7_absent_vs_stored_null {V : Type} (t : TableF V) (k j : Key)
    (hk : chContains t k = true) (hkv : chGet t k = none)
    (hj : chContains t j = false) :
    chGet t k = chGet t j ∧ (chDelete t k).2 = (chDelete t j).2 := by
  have hjget : chGet t j = none :=
    getChain_eq_none_of_forall _ _ ((chContains_false_iff t j).mp hj)
  refine ⟨by rw [hkv, hjget], ?_⟩
  rw [chDelete_snd, chDelete_snd, hkv, hjget]

/-- Witness for C7 with the stored-NULL key "a" and the absent key "b". -/
theorem C7_witness :
    (chContains (chPut (emptyTable Nat 1) [97] none).1 [97] = true
      ∧ chGet (chPut (emptyTable Nat 1) [97] none).1 [97] = none
      ∧ chContains (chPut (emptyTable Nat 1) [97] none).1 [98] = false)
    ∧ chGet (chPut (emptyTable Nat 1) [97] none).1 [97]
        = chGet (chPut (emptyTable Nat 1) [97] none).1 [98] :=
  ⟨⟨by decide, by decide, by decide⟩,
   (C7_absent_vs_stored_null _ [97] [98] (by decide) (by decide) (by decide)).1⟩

/-! ### Claim C4 -/

/-- C4 counterexample: updating an existing key returns the NEW value, not
the old one the claim promises ("the old value reference previously stored
under k is returned to the caller"). -/
theorem C4_counterexample :
    chGet (chPut (emptyTable Nat 1) [97] (some 1)).1 [97] = some 1
    ∧ (chPut (chPut (emptyTable Nat 1) [97] (some 1)).1 [97] (some 2)).2 = some 2
    ∧ (chPut (chPut (emptyTable Nat 1) [97] (some 1)).1 [97] (some 2)).2 ≠ some 1 := by
  decide

/-- C4 amended: put on a present key overwrites the matching entry's value
reference in place — no entry is created or moved anywhere in the table, and
no other key's lookup changes — and the NEW value reference is returned to
the caller (the old one is discarded, neither freed nor returned). -/
theorem C4_put_existing_key {V : Type} (t : TableF V) (k : Key) (v : Option V)
    (hpres : chContains t k = true) :
    (chPut t k v).2 = v ∧
    chGet (chPut t k v).1 k = v ∧
    (∀ i, ((chPut t k v).1.slots i).map Entry.key = (t.slots i).map Entry.key) ∧
    ∀ j, j ≠ k → chGet (chPut t k v).1 j = chGet t j := by
  have hmemk : k ∈ (t.slots (slotOf t.size k)).map Entry.key := by
    obtain ⟨e, he, hek⟩ := (chContains_true_iff t k).mp hpres
    have h1 : e.key ∈ (t.slots (slotOf t.size k)).map Entry.key :=
      List.mem_map_of_mem Entry.key he
    rw [hek] at h1
    exact h1
  refine ⟨chPut_snd t k v, chGet_chPut_self t k v, ?_, ?_⟩
  · intro i
    rw [chPut_fst, setSlot_slots]
    by_cases hi : i = slotOf t.size k
    · subst hi
      rw [Function.update_same, keys_putChain_of_mem _ _ _ hmemk]
    · rw [Function.update_noteq hi]
  · intro j hj
    exact chGet_chPut_other t v (Ne.symm hj)

/-- Witness for C4: update the single entry of a capacity-1 table. -/
theorem C4_witness :
    chContains (chPut (emptyTable Nat 1) [97] (some 1)).1 [97] = true
    ∧ (chPut (chPut (emptyTable Nat 1) [97] (some 1)).1 [97] (some 2)).2 = some 2
    ∧ chGet (chPut (chPut (emptyTable Nat 1) [97] (some 1)).1 [97] (some 2)).1 [97]
        = some 2 := by
  have h := C4_put_existing_key (chPut (emptyTable Nat 1) [97] (some 1)).1 [97]
    (some 2) (by decide)
  exact ⟨by decide, h.1, h.2.1⟩

/-! ### Claim C8 -/

theorem foldl_hashStep_ascii (k : Key) (h2 : ∀ b ∈ k, b < 128) :
    ∀ a : Nat, k.foldl hashStep a = k.foldl (fun v b => (v * 33 + b) % 2 ^ 64) a := by
  induction k with
  | nil => intro a; rfl
  | cons b rest ih =>
    intro a
    have hb : b < 128 := h2 b (List.mem_cons_self b rest)
    have hstep : hashStep a b = (a * 33 + b) % 2 ^ 64 := by
      simp [hashStep, charAsULong, hb]
    simp only [List.foldl_cons, hstep]
    exact ih (fun x hx => h2 x (List.mem_cons_of_mem b hx)) _

/-- C8 counterexample: for the one-byte string with byte value 200 the code
adds the byte through signed `char` — the accumulator becomes
`2 ^ 64 - 56`, not the 200 the claimed algorithm (`specHash`) produces. -/
theorem C8_counterexample : chashHash [200] ≠ specHash [200] := by decide

/-- C8 amended: for strings shorter than 2 ^ 16 bytes all of whose bytes are
below 128, the hash is exactly the claimed fold — accumulator from 0,
times 33 plus the byte, wrapping modulo 2 ^ 64 — and the empty string hashes
to 0.  (In general the code visits only the first `length mod 2 ^ 16` bytes,
because `length` is an `unsigned short`, and bytes at or above 128 enter the
sum as `byte - 256`, because `char` is signed.) -/
theorem C8_hash_algorithm (k : Key) (h1 : k.length < 2 ^ 16)
    (h2 : ∀ b ∈ k, b < 128) :
    chashHash k = specHash k ∧ chashHash [] = 0 := by
  constructor
  · unfold chashHash specHash
    rw [Nat.mod_eq_of_lt h1, List.take_length]
    exact foldl_hashStep_ascii k h2 0
  · rfl

/-- Witness for C8 on the three-byte ASCII string "hey". -/
theorem C8_witness :
    (([104, 101, 121] : Key).length < 2 ^ 16
      ∧ ∀ b ∈ ([104, 101, 121] : Key), b < 128)
    ∧ chashHash [104, 101, 121] = specHash [104, 101, 121] :=
  ⟨⟨by decide, by decide⟩,
   (C8_hash_algorithm [104, 101, 121] (by decide) (by decide)).1⟩

/-! ### Claim C9 -/

/-- C9 counterexample: the slot-placement invariant exactly as the spec words
it — entry at `slots[i]` hashes mod capacity to `i` — holds on the empty
table of capacity `2 ^ 32 + 1` but is broken by a single put: `key7` hashes
to `2 ^ 32`, and the code truncates the slot index to `unsigned int`, filing
the entry under slot 0 instead of slot `2 ^ 32`. -/
theorem C9_counterexample :
    SpecSlotInv (emptyTable Nat (2 ^ 32 + 1))
    ∧ ¬ SpecSlotInv (chPut (emptyTable Nat (2 ^ 32 + 1)) key7 (some 0)).1 := by
  constructor
  · intro i e he
    simp [emptyTable] at he
  · intro h
    have hslot0 : (chPut (emptyTable Nat (2 ^ 32 + 1)) key7 (some 0)).1.slots 0
        = [{ key := key7, value := some 0 }] := by decide
    have hmem : ({ key := key7, value := some 0 } : Entry Nat)
        ∈ (chPut (emptyTable Nat (2 ^ 32 + 1)) key7 (some 0)).1.slots 0 := by
      rw [hslot0]
      exact List.mem_singleton.mpr rfl
    have hbad : chashHash key7 % (2 ^ 32 + 1) = 0 := h 0 _ hmem
    have hne : chashHash key7 % (2 ^ 32 + 1) ≠ 0 := by decide
    exact hne hbad

/-- C9 amended: put and delete preserve the three predicates with the slot
invariant as the code actually maintains it — the entry sits at
`(hash mod capacity) mod 2 ^ 32` — namely: capacity unchanged, keys unique
across the whole table, and well-formedness; get never mutates the table (it
is a pure reader in the embedding).  Clear is excluded: it leaves every
non-empty slot dangling (claim C2). -/
theorem C9_put_get_delete_preserve_invariants {V : Type} (t : TableF V)
    (k : Key) (v : Option V) (hwf : WF t) (hk : ValidKey k) :
    ((chPut t k v).1.size = t.size ∧ (chDelete t k).1.size = t.size)
    ∧ (UniqueKeys (chPut t k v).1 ∧ UniqueKeys (chDelete t k).1)
    ∧ (WF (chPut t k v).1 ∧ WF (chDelete t k).1) := by
  have hp := WF_chPut t k v hwf hk
  have hdl := WF_chDelete t k hwf
  exact ⟨⟨chPut_size t k v, chDelete_size t k⟩,
    ⟨WF_uniqueKeys _ hp, WF_uniqueKeys _ hdl⟩, ⟨hp, hdl⟩⟩

/-- Witness for C9 on the empty capacity-2 table. -/
theorem C9_witness :
    (WF (emptyTable Nat 2) ∧ ValidKey [97])
    ∧ ((chPut (emptyTable Nat 2) [97] (some 1)).1.size = 2
      ∧ (chDelete (emptyTable Nat 2) [97]).1.size = 2) := by
  have hwf : WF (emptyTable Nat 2) := WF_emptyTable 2 (by decide)
  have h := C9_put_get_delete_preserve_invariants (emptyTable Nat 2) [97]
    (some 1) hwf (by decide)
  exact ⟨⟨hwf, by decide⟩, ⟨h.1.1, h.1.2⟩⟩

/-! ### Claim C2 -/

/-- C2: on a capacity-1 table whose chain holds "a" then "b", `ch_clear`
frees only the chain head — the slot still holds address 1 (not emptied),
the node for "b" at address 2 is still allocated (not released) — and a
subsequent get of "b", which worked before the clear, dereferences the freed
head: undefined behavior, not the claimed "not found". -/
theorem C2_clear_leaves_dangling_slots :
    (chClearH twoChainTable).slots 0 = some 1
    ∧ (chClearH twoChainTable).heap 1 = none
    ∧ (chClearH twoChainTable).heap 2
        = some { key := [98], value := some 20, next := none }
    ∧ chGetH twoChainTable [98] 5 = Except.ok (some 20)
    ∧ chGetH (chClearH twoChainTable) [98] 5 = Except.error CrashE.useAfterFree := by
  refine ⟨rfl, rfl, rfl, rfl, rfl⟩

/-! ### Claim C3 -/

/-- C3: the entry-releasing phase of `ch_destroy` is NOT equivalent to
`ch_clear`: its guard divides sizeof a pointer by sizeof the node struct,
which is constant 0, so destroy releases no entry at all, while clear does
free the chain head. -/
theorem C3_destroy_never_clears :
    chDestroyEntries twoChainTable = twoChainTable
    ∧ twoChainTable.heap 1 = some { key := [97], value := some 10, next := some 2 }
    ∧ (chClearH twoChainTable).heap 1 = none
    ∧ (chDestroyEntries twoChainTable).heap 1 ≠ (chClearH twoChainTable).heap 1 := by
  refine ⟨rfl, rfl, rfl, by decide⟩

/-! ### Claim C5 -/

/-- C5: how the code actually behaves on allocation failure.  When the table
allocation of `ch_create` fails, the code crashes on a NULL dereference (it
stores through `p_table` before checking it) instead of reporting failure;
only a failed slot-array allocation is reported correctly; `ch_create(0)` is
not rejected — with glibc `malloc(0)` succeeding, it returns a zero-capacity
table rather than a failure.  When the node allocation inside `ch_put`
fails, the code crashes the same way; and when only the key allocation
fails, `ch_put` returns the value exactly as on success, reporting nothing. -/
theorem C5_allocation_failure_handling :
    chCreateM Nat false true 4 = Except.error CrashE.nullDeref
    ∧ chCreateM Nat true false 4 = Except.ok none
    ∧ chCreateM Nat true true 0 = Except.ok (some (emptyTable Nat 0))
    ∧ chPutM false true (emptyTable Nat 1) [97] (some 5)
        = Except.error CrashE.nullDeref
    ∧ chPutM true false (emptyTable Nat 1) [97] (some 5)
        = Except.ok (setSlot (emptyTable Nat 1) 0 [], some 5) := by
  refine ⟨rfl, rfl, rfl, rfl, rfl⟩
